import Mathlib

set_option maxHeartbeats 1000000

namespace DepEval

/-- Association-list lookup modelling the HashMap get used by Numberer val2idx. -/
def lookupVal {V : Type} [DecidableEq V] : List (V × Nat) → V → Option Nat
  | [], _ => none
  | (k, i) :: rest, v => if k = v then some i else lookupVal rest v

/-- Model of the Rust struct Numberer: a map value to index together with the
inverse ordered sequence index to value. -/
structure Numberer (V : Type) where
  val2idx : List (V × Nat)
  idx2val : List V
deriving DecidableEq

/-- Model of Numberer::new. -/
def Numberer.new (V : Type) : Numberer V := ⟨[], []⟩

/-- Model of Numberer::number: return the existing index of val, or assign the
next integer (current count of val2idx) and record it in both directions. -/
def Numberer.number {V : Type} [DecidableEq V] (m : Numberer V) (val : V) :
    Nat × Numberer V :=
  match lookupVal m.val2idx val with
  | some idx => (idx, m)
  | none =>
    let nVals := m.val2idx.length
    (nVals, ⟨m.val2idx ++ [(val, nVals)], m.idx2val ++ [val]⟩)

/-- Model of Numberer::get_number. -/
def Numberer.getNumber {V : Type} [DecidableEq V] (m : Numberer V) (val : V) :
    Option Nat :=
  lookupVal m.val2idx val

/-- Model of Numberer::len. -/
def Numberer.len {V : Type} (m : Numberer V) : Nat := m.idx2val.length

/-- Model of Numberer::is_empty. -/
def Numberer.isEmptyN {V : Type} (m : Numberer V) : Bool := m.idx2val.isEmpty

/-- Model of Numberer::get_val. -/
def Numberer.getVal {V : Type} (m : Numberer V) (idx : Nat) : Option V :=
  m.idx2val.get? idx

/-- Sequencing of number calls, one per list element. -/
def Numberer.numberAll {V : Type} [DecidableEq V] (m : Numberer V) :
    List V → Numberer V
  | [] => m
  | v :: vs => Numberer.numberAll (m.number v).2 vs

/-- Well-formedness of a Numberer state: the stored indices are exactly
0..count in insertion order, keys are distinct, and both directions have the
same size.  This holds for every state reachable from Numberer::new. -/
def Numberer.WF {V : Type} (m : Numberer V) : Prop :=
  m.val2idx.map Prod.snd = List.range m.val2idx.length
  ∧ (m.val2idx.map Prod.fst).Nodup
  ∧ m.idx2val.length = m.val2idx.length

instance {V : Type} [DecidableEq V] (m : Numberer V) : Decidable m.WF := by
  unfold Numberer.WF; infer_instance

/-- Keys of the value-to-index map, in insertion order. -/
def Numberer.keys {V : Type} (m : Numberer V) : List V := m.val2idx.map Prod.fst

/-- Cell access in a count matrix, reading zero outside the stored rows. -/
def cell (m : List (List Nat)) (i j : Nat) : Nat := (m.getD i []).getD j 0

/-- Update of one list element in place, modelling Vec index assignment. -/
def modifyAt {α : Type} : List α → Nat → (α → α) → List α
  | [], _, _ => []
  | x :: xs, 0, f => f x :: xs
  | x :: xs, i + 1, f => x :: modifyAt xs i f

/-- One iteration of the growth loop in Confusion::insert: push a zero row of
the old width, then push one zero cell onto every row. -/
def growStep (m : List (List Nat)) : List (List Nat) :=
  (m ++ [List.replicate m.length 0]).map (fun row => row ++ [0])

/-- Fuel-indexed form of the growth loop of Confusion::insert.  Each guarded
iteration consumes one unit of fuel; the loop itself never needs more than
t + p + 2 - length iterations, which growWhile supplies. -/
def growWhileFuel : Nat → List (List Nat) → Nat → Nat → List (List Nat)
  | 0, m, _, _ => m
  | fuel + 1, m, t, p =>
    if m.length ≤ t ∨ m.length ≤ p then growWhileFuel fuel (growStep m) t p
    else m

/-- The while loop of Confusion::insert: grow until both indices are in range.
The loop equation it satisfies is proved as growWhile_eq. -/
def growWhile (m : List (List Nat)) (t p : Nat) : List (List Nat) :=
  growWhileFuel (t + p + 2 - m.length) m t p

/-- Model of the Rust struct Confusion: a count matrix indexed through a
Numberer, plus a display name. -/
structure Confusion (V : Type) where
  confusion : List (List Nat)
  numberer : Numberer V
  name : String
deriving DecidableEq

/-- Model of Confusion::new. -/
def Confusion.new {V : Type} (name : String) : Confusion V :=
  ⟨[], Numberer.new V, name⟩

/-- Index assigned to the gold value by the first number call of insert. -/
def Confusion.targetIdx {V : Type} [DecidableEq V] (c : Confusion V)
    (target : V) : Nat :=
  (c.numberer.number target).1

/-- Index assigned to the predicted value by the second number call of
insert. -/
def Confusion.predIdx {V : Type} [DecidableEq V] (c : Confusion V)
    (target prediction : V) : Nat :=
  ((c.numberer.number target).2.number prediction).1

/-- The matrix state after the growth loop of insert, before the increment. -/
def Confusion.grownMatrix {V : Type} [DecidableEq V] (c : Confusion V)
    (target prediction : V) : List (List Nat) :=
  growWhile c.confusion (c.targetIdx target) (c.predIdx target prediction)

/-- Model of Confusion::insert: number both values, run the growth loop until
both indices are covered, then increment the (target, prediction) cell. -/
def Confusion.insert {V : Type} [DecidableEq V] (c : Confusion V)
    (target prediction : V) : Confusion V :=
  { confusion :=
      modifyAt (c.grownMatrix target prediction) (c.targetIdx target)
        (fun row => modifyAt row (c.predIdx target prediction) (fun n => n + 1)),
    numberer := ((c.numberer.number target).2.number prediction).2,
    name := c.name }

/-- Sequencing of insert calls, one per (gold, predicted) pair. -/
def Confusion.insertAll {V : Type} [DecidableEq V] (c : Confusion V) :
    List (V × V) → Confusion V
  | [] => c
  | (g, p) :: rest => Confusion.insertAll (c.insert g p) rest

/-- Well-formedness of a Confusion state: the numberer is well-formed and the
matrix is square of dimension numberer.len.  Every state reachable from
Confusion::new by insert calls satisfies this. -/
def Confusion.WF {V : Type} [DecidableEq V] (c : Confusion V) : Prop :=
  c.numberer.WF ∧ c.confusion.length = c.numberer.len
    ∧ ∀ row ∈ c.confusion, row.length = c.numberer.len

instance {V : Type} [DecidableEq V] (c : Confusion V) : Decidable c.WF := by
  unfold Confusion.WF; infer_instance

/-- Concrete confusion used to exhibit C1 at work: value 0 and 1 are known. -/
def cWitnessA : Confusion Nat := (Confusion.new "T").insert 0 1

/-- Concrete confusion used to exhibit C10 at work: value 3 and 4 are known. -/
def cWitnessB : Confusion Nat := (Confusion.new "T").insert 3 4

/-- Value model of an f32 ratio of two counts as produced by the source: 0/0
yields NaN, n/0 with positive n yields infinity, and any other quotient is
kept exactly as a rational. -/
inductive FVal : Type
  | nan : FVal
  | inf : FVal
  | val : ℚ → FVal
deriving DecidableEq

/-- Division of two counts cast to f32, as performed throughout the source. -/
def divCounts (a b : Nat) : FVal :=
  if b = 0 then (if a = 0 then FVal.nan else FVal.inf)
  else FVal.val ((a : ℚ) / (b : ℚ))

/-- Model of Confusion::write_accuracies: for every known class in numbering
order, the emitted line carries the class value, the row total, and the
accuracy correct divided by total. -/
def Confusion.writeAccuracies {V : Type} (c : Confusion V) :
    List (V × Nat × FVal) :=
  c.numberer.idx2val.enum.map fun pr =>
    let idx := pr.1
    let row := c.confusion.getD idx []
    let correct := row.getD idx 0
    let total := row.sum
    (pr.2, total, divCounts correct total)

/-- The (total_correct, full_total) accumulators of the Display impl for
Confusion, folded over the rows in numbering order. -/
def Confusion.displayStats {V : Type} (c : Confusion V) : Nat × Nat :=
  (List.range c.numberer.idx2val.length).foldl
    (fun acc idx =>
      let row := c.confusion.getD idx []
      (acc.1 + row.getD idx 0, acc.2 + row.sum))
    (0, 0)

/-- The false-positive accumulator computed for column i by the Display impl:
the sum of column i skipping the diagonal. -/
def Confusion.falsePos {V : Type} (c : Confusion V) (i : Nat) : Nat :=
  (List.range c.confusion.length).foldl
    (fun fp j => if j = i then fp else fp + cell c.confusion j i) 0

/-- Per-class precision emitted by the Display impl. -/
def Confusion.displayPrec {V : Type} (c : Confusion V) (i : Nat) : FVal :=
  divCounts (cell c.confusion i i) (cell c.confusion i i + c.falsePos i)

/-- Overall accuracy emitted on the final line by the Display impl. -/
def Confusion.displayAcc {V : Type} (c : Confusion V) : FVal :=
  divCounts c.displayStats.1 c.displayStats.2

/-- Concrete confusion with a zero row, exhibiting C6: value 8 is only ever
predicted, never gold, so its row total is zero. -/
def cWitnessC : Confusion Nat := (Confusion.new "T").insert 7 8

/-- Concrete populated confusion exhibiting C5. -/
def cWitnessD : Confusion Nat :=
  (Confusion.new "T").insertAll [(1, 2), (2, 2), (1, 1)]

/-- Model of a conllx token as consumed by the scorer: surface form, head
position (0 for root), and optional relation label. -/
structure Tok where
  form : String
  head : Nat
  rel : Option String
deriving DecidableEq

/-- One entry of a parsed sentence: a scoreable token, or a non-token entry
that the token filter of the scoring loop skips. -/
inductive Entry : Type
  | tok : Tok → Entry
  | nonTok : Entry
deriving DecidableEq

/-- A sentence as exposed by the external parser: an ordered entry list. -/
abbrev Sentence : Type := List Entry

/-- The filter_map over a sentence keeping only tokens, as in the loop of
main. -/
def tokensOf (s : Sentence) : List Tok :=
  s.filterMap fun e =>
    match e with
    | Entry.tok t => some t
    | Entry.nonTok => none

/-- The triple returned by dep_graph().head(idx): head position, optional
relation label, dependent position. -/
structure DepTriple where
  head : Nat
  relation : Option String
  dependent : Nat
deriving DecidableEq

/-- Head lookup of a sentence at 1-based position idx, as provided by the
external dependency graph: the entry at idx yields its head triple, a
non-token entry or an out-of-range idx yields nothing. -/
def headOf (s : Sentence) (idx : Nat) : Option DepTriple :=
  match s.get? (idx - 1) with
  | some (Entry.tok t) => some ⟨t.head, t.rel, idx⟩
  | _ => none

/-- Head distance: absolute difference of head position and token position,
computed through i64 casts in the source. -/
def dist (head idx : Nat) : Nat := ((head : Int) - (idx : Int)).natAbs

/-- The failure modes of the scoring loop: the two asserts and the unwraps. -/
inductive ScoreErr : Type
  | lenMismatch
  | formMismatch
  | missingHead
deriving DecidableEq

/-- The mutable scoring state of main: the two confusions and the three
counters. -/
structure ScoreState where
  distanceConfusion : Confusion Nat
  deprelConfusion : Confusion String
  correctHead : Nat
  correctHeadLabel : Nat
  total : Nat
deriving DecidableEq

/-- Initial scoring state of main. -/
def initState : ScoreState :=
  ⟨Confusion.new "Dists", Confusion.new "Deprels", 0, 0, 0⟩

/-- The per-token updates of the loop body of main, applied once both head
triples and both relation labels are available. -/
def tally (valTriple predTriple : DepTriple) (valRel predRel : String)
    (idx : Nat) (st : ScoreState) : ScoreState :=
  { distanceConfusion :=
      st.distanceConfusion.insert (dist valTriple.head idx)
        (dist predTriple.head idx),
    deprelConfusion := st.deprelConfusion.insert valRel predRel,
    correctHead := st.correctHead
      + (if predTriple.head = valTriple.head then 1 else 0),
    correctHeadLabel := st.correctHeadLabel
      + (if predTriple = valTriple then 1 else 0),
    total := st.total + 1 }

/-- One iteration of the per-token loop of main: assert equal surface forms,
unwrap both head triples and both relation labels, then tally. -/
def scoreStep (vsent psent : Sentence) (idx : Nat) (vt pt : Tok)
    (st : ScoreState) : Except ScoreErr ScoreState :=
  if vt.form ≠ pt.form then Except.error ScoreErr.formMismatch
  else
    match headOf vsent idx with
    | none => Except.error ScoreErr.missingHead
    | some valTriple =>
      match valTriple.relation with
      | none => Except.error ScoreErr.missingHead
      | some valRel =>
        match headOf psent idx with
        | none => Except.error ScoreErr.missingHead
        | some predTriple =>
          match predTriple.relation with
          | none => Except.error ScoreErr.missingHead
          | some predRel =>
            Except.ok (tally valTriple predTriple valRel predRel idx st)

/-- The walk over the zipped filtered token pairs with the 1-based counter. -/
def scoreTokens (vsent psent : Sentence) :
    List (Tok × Tok) → Nat → ScoreState → Except ScoreErr ScoreState
  | [], _, st => Except.ok st
  | (vt, pt) :: rest, idx, st =>
    match scoreStep vsent psent idx vt pt st with
    | Except.ok st2 => scoreTokens vsent psent rest (idx + 1) st2
    | Except.error e => Except.error e

/-- One iteration of the outer sentence loop of main: assert equal unfiltered
sentence lengths, then zip the filtered token sequences and walk them. -/
def scoreSentencePair (vsent psent : Sentence) (st : ScoreState) :
    Except ScoreErr ScoreState :=
  if vsent.length = psent.length then
    scoreTokens vsent psent ((tokensOf vsent).zip (tokensOf psent)) 1 st
  else Except.error ScoreErr.lenMismatch

/-- One outcome of read_sentence on a conllx reader. -/
inductive ReadResult : Type
  | ok : Sentence → ReadResult
  | eof : ReadResult
  | err : ReadResult
deriving DecidableEq

/-- The while-let loop of main: it continues only while both reads yield
Ok(Some(sentence)); an Err or an end of stream on either side ends the loop
quietly, keeping the state accumulated so far. -/
def runLoop : List ReadResult → List ReadResult → ScoreState →
    Except ScoreErr ScoreState
  | gv :: gs, pv :: ps, st =>
    (match gv, pv with
     | ReadResult.ok v, ReadResult.ok p =>
       (match scoreSentencePair v p st with
        | Except.ok st2 => runLoop gs ps st2
        | Except.error e => Except.error e)
     | _, _ => Except.ok st)
  | _, _, st => Except.ok st

/-- Run-level error kinds of main. -/
inductive RunErr : Type
  | inputUnavailable
  | score : ScoreErr → RunErr
deriving DecidableEq

/-- Model of main around the scoring loop: a failed open of either input
aborts before any scoring happens; otherwise the loop runs and the final
counters (correct_head, correct_head_label, total) are reported. -/
def mainModel (valOpen predOpen : Option (List ReadResult)) :
    Except RunErr (Nat × Nat × Nat) :=
  match valOpen with
  | none => Except.error RunErr.inputUnavailable
  | some gs =>
    match predOpen with
    | none => Except.error RunErr.inputUnavailable
    | some ps =>
      match runLoop gs ps initState with
      | Except.error e => Except.error (RunErr.score e)
      | Except.ok st =>
        Except.ok (st.correctHead, st.correctHeadLabel, st.total)

/-- The 4-decimal rendering of a ratio of two counts, scaled by 10000:
round4 a b = n means a/b prints as 0.XXXX with XXXX = n (for ratios below
one). -/
def round4 (a b : Nat) : Int := round ((a : ℚ) / (b : ℚ) * 10000)

/-- Option values parsed from a command line: pairs of long option name and
value; value_of is lookup by the argument name constant. -/
structure ArgMatches where
  values : List (String × String)
deriving DecidableEq

/-- Model of matches.value_of. -/
def ArgMatches.valueOf (m : ArgMatches) (key : String) : Option String :=
  (m.values.find? fun pr => pr.1 == key).map Prod.snd

/-- Argument name constant VALIDATION of the source. -/
def VALIDATION : String := "VALIDATION"

/-- Argument name constant PREDICTION of the source. -/
def PREDICTION : String := "PREDICTION"

/-- Argument name constant DEPREL_CONFUSION of the source. -/
def DEPREL_CONFUSION : String := "deprel_confusion"

/-- Argument name constant DEPREL_ACCURACIES of the source. -/
def DEPREL_ACCURACIES : String := "deprel_accuracies"

/-- Argument name constant DISTANCE_ACCURACIES of the source; its value is
the string distance_confusion, exactly as in the source. -/
def DISTANCE_ACCURACIES : String := "distance_confusion"

/-- Argument name constant DISTANCE_CONFUSION of the source; its value is
the string distance_accuracies, exactly as in the source. -/
def DISTANCE_CONFUSION : String := "distance_accuracies"

/-- The four renderings main can write to an optional destination. -/
inductive Rendering : Type
  | deprelMatrix
  | deprelAccuracies
  | distanceMatrix
  | distanceAccuracies
deriving DecidableEq

/-- Model of the four optional output blocks at the end of main, in source
order: the Display rendering of the deprel confusion to the destination at
key DEPREL_CONFUSION, its write_accuracies to the key DEPREL_ACCURACIES, the
Display rendering of the distance confusion to the key DISTANCE_CONFUSION,
and its write_accuracies to the key DISTANCE_ACCURACIES. -/
def reporterWrites (m : ArgMatches) : List (String × Rendering) :=
  (match m.valueOf DEPREL_CONFUSION with
   | some f => [(f, Rendering.deprelMatrix)]
   | none => [])
  ++ (match m.valueOf DEPREL_ACCURACIES with
   | some f => [(f, Rendering.deprelAccuracies)]
   | none => [])
  ++ (match m.valueOf DISTANCE_CONFUSION with
   | some f => [(f, Rendering.distanceMatrix)]
   | none => [])
  ++ (match m.valueOf DISTANCE_ACCURACIES with
   | some f => [(f, Rendering.distanceAccuracies)]
   | none => [])

/-- Gold sentence of the C7 scenario: heads 2, 0, 2 with labels nsubj, root,
obj. -/
def goldScenario : Sentence :=
  [Entry.tok ⟨"w1", 2, some "nsubj"⟩, Entry.tok ⟨"w2", 0, some "root"⟩,
   Entry.tok ⟨"w3", 2, some "obj"⟩]

/-- Predicted sentence of the C7 scenario: heads 2, 0, 3, same labels. -/
def predScenario : Sentence :=
  [Entry.tok ⟨"w1", 2, some "nsubj"⟩, Entry.tok ⟨"w2", 0, some "root"⟩,
   Entry.tok ⟨"w3", 3, some "obj"⟩]

/-- The C7 run: two single-sentence streams. -/
def scenarioResult : Except ScoreErr ScoreState :=
  runLoop [ReadResult.ok goldScenario] [ReadResult.ok predScenario] initState

/-- Gold sentence whose filtered length differs from its partner below while
the unfiltered lengths agree: one token plus one non-token entry. -/
def goldFilterMismatch : Sentence :=
  [Entry.tok ⟨"a", 0, some "root"⟩, Entry.nonTok]

/-- Predicted sentence with two tokens: same unfiltered length as the gold
sentence above, one more filtered token. -/
def predFilterMismatch : Sentence :=
  [Entry.tok ⟨"a", 0, some "root"⟩, Entry.tok ⟨"b", 1, some "x"⟩]

/-- One-token gold sentence for the C3 witness length-mismatch case. -/
def goldLenMismatch : Sentence := [Entry.tok ⟨"a", 0, some "root"⟩]

/-- Gold sentence of the small C4 witness run. -/
def c4Gold : Sentence := [Entry.tok ⟨"a", 1, some "r"⟩]

/-- Predicted sentence of the small C4 witness run: a different head. -/
def c4Pred : Sentence := [Entry.tok ⟨"a", 0, some "r"⟩]

/-- The state reached by the small C4 witness run. -/
def c4State : ScoreState :=
  match runLoop [ReadResult.ok c4Gold] [ReadResult.ok c4Pred] initState with
  | Except.ok st => st
  | Except.error _ => initState

/-- One-token sentence used in the C9 streams. -/
def c9Sentence : Sentence := [Entry.tok ⟨"a", 0, some "root"⟩]

/-- Gold stream of the C9 counterexample: a read failure mid-stream. -/
def c9Gold : List ReadResult :=
  [ReadResult.ok c9Sentence, ReadResult.err, ReadResult.ok c9Sentence]

/-- Predicted stream of the C9 counterexample: three good sentences. -/
def c9Pred : List ReadResult :=
  [ReadResult.ok c9Sentence, ReadResult.ok c9Sentence,
   ReadResult.ok c9Sentence]

/-- Whether a read outcome lets the while-let loop continue. -/
def ReadResult.isOkSome : ReadResult → Bool
  | ReadResult.ok _ => true
  | _ => false

instance {ε α : Type} [DecidableEq ε] [DecidableEq α] :
    DecidableEq (Except ε α) := fun x y =>
  match x, y with
  | Except.ok a, Except.ok b =>
    if h : a = b then Decidable.isTrue (by rw [h])
    else Decidable.isFalse (fun hc => h (by injection hc))
  | Except.error a, Except.error b =>
    if h : a = b then Decidable.isTrue (by rw [h])
    else Decidable.isFalse (fun hc => h (by injection hc))
  | Except.ok _, Except.error _ =>
    Decidable.isFalse (fun hc => Except.noConfusion hc)
  | Except.error _, Except.ok _ =>
    Decidable.isFalse (fun hc => Except.noConfusion hc)

theorem lookupVal_mem {V : Type} [DecidableEq V] {l : List (V × Nat)} {v : V}
    {i : Nat} (h : lookupVal l v = some i) : (v, i) ∈ l := by
  induction l with
  | nil => simp [lookupVal] at h
  | cons p rest ih =>
    obtain ⟨k, j⟩ := p
    by_cases hk : k = v
    · subst hk
      simp [lookupVal] at h
      simp [h]
    · simp [lookupVal, hk] at h
      exact List.mem_cons_of_mem _ (ih h)

theorem lookupVal_none_iff {V : Type} [DecidableEq V] {l : List (V × Nat)}
    {v : V} : lookupVal l v = none ↔ v ∉ l.map Prod.fst := by
  induction l with
  | nil => simp [lookupVal]
  | cons p rest ih =>
    obtain ⟨k, j⟩ := p
    by_cases hk : k = v
    · subst hk; simp [lookupVal]
    · simp [lookupVal, hk, ih, Ne.symm hk]

theorem lookupVal_append_some {V : Type} [DecidableEq V] {l l2 : List (V × Nat)}
    {v : V} {i : Nat} (h : lookupVal l v = some i) :
    lookupVal (l ++ l2) v = some i := by
  induction l with
  | nil => simp [lookupVal] at h
  | cons p rest ih =>
    obtain ⟨k, j⟩ := p
    by_cases hk : k = v
    · subst hk; simp [lookupVal] at h ⊢; exact h
    · simp [lookupVal, hk] at h ⊢; exact ih h

theorem lookupVal_append_none {V : Type} [DecidableEq V] {l : List (V × Nat)}
    {l2 : List (V × Nat)} {v : V} (h : lookupVal l v = none) :
    lookupVal (l ++ l2) v = lookupVal l2 v := by
  induction l with
  | nil => simp
  | cons p rest ih =>
    obtain ⟨k, j⟩ := p
    by_cases hk : k = v
    · subst hk; simp [lookupVal] at h
    · simp [lookupVal, hk] at h ⊢; exact ih h

theorem number_seen {V : Type} [DecidableEq V] {m : Numberer V} {v : V}
    {i : Nat} (h : m.getNumber v = some i) : m.number v = (i, m) := by
  unfold Numberer.number
  unfold Numberer.getNumber at h
  rw [h]

theorem number_new {V : Type} [DecidableEq V] {m : Numberer V} {v : V}
    (h : m.getNumber v = none) :
    m.number v = (m.val2idx.length,
      ⟨m.val2idx ++ [(v, m.val2idx.length)], m.idx2val ++ [v]⟩) := by
  unfold Numberer.number
  unfold Numberer.getNumber at h
  rw [h]

theorem getNumber_number_self {V : Type} [DecidableEq V] (m : Numberer V)
    (v : V) : (m.number v).2.getNumber v = some (m.number v).1 := by
  rcases h : m.getNumber v with _ | i
  · rw [number_new h]
    unfold Numberer.getNumber at h ⊢
    simp [lookupVal_append_none h, lookupVal]
  · rw [number_seen h]
    exact h

theorem getNumber_number_mono {V : Type} [DecidableEq V] {m : Numberer V}
    {v : V} {i : Nat} (h : m.getNumber v = some i) (w : V) :
    (m.number w).2.getNumber v = some i := by
  rcases hw : m.getNumber w with _ | j
  · rw [number_new hw]
    unfold Numberer.getNumber at h ⊢
    exact lookupVal_append_some h
  · rw [number_seen hw]
    exact h

theorem getNumber_numberAll_mono {V : Type} [DecidableEq V] {m : Numberer V}
    {v : V} {i : Nat} (h : m.getNumber v = some i) (ws : List V) :
    (m.numberAll ws).getNumber v = some i := by
  induction ws generalizing m with
  | nil => exact h
  | cons w ws ih =>
    exact ih (getNumber_number_mono h w)

theorem WF_new (V : Type) : (Numberer.new V).WF := by
  constructor
  · rfl
  · exact ⟨List.nodup_nil, rfl⟩

theorem WF_number {V : Type} [DecidableEq V] {m : Numberer V} (hwf : m.WF)
    (v : V) : (m.number v).2.WF := by
  obtain ⟨h1, h2, h3⟩ := hwf
  rcases h : m.getNumber v with _ | i
  · rw [number_new h]
    refine ⟨?_, ?_, ?_⟩
    · simp [List.range_succ, h1]
    · simp only [List.map_append, List.map_cons, List.map_nil]
      rw [List.nodup_append]
      refine ⟨h2, List.nodup_singleton v, ?_⟩
      intro a ha hb
      simp at hb
      subst hb
      exact ((lookupVal_none_iff).1 h) ha
    · simp [h3]
  · rw [number_seen h]
    exact ⟨h1, h2, h3⟩

theorem len_number_seen {V : Type} [DecidableEq V] {m : Numberer V} {v : V}
    {i : Nat} (h : m.getNumber v = some i) : (m.number v).2.len = m.len := by
  rw [number_seen h]

theorem len_number_new {V : Type} [DecidableEq V] {m : Numberer V} {v : V}
    (h : m.getNumber v = none) : (m.number v).2.len = m.len + 1 := by
  rw [number_new h]
  simp [Numberer.len]

theorem getNumber_lt_len {V : Type} [DecidableEq V] {m : Numberer V}
    (hwf : m.WF) {v : V} {i : Nat} (h : m.getNumber v = some i) : i < m.len := by
  obtain ⟨h1, _, h3⟩ := hwf
  have hmem : (v, i) ∈ m.val2idx := lookupVal_mem h
  have : i ∈ m.val2idx.map Prod.snd := List.mem_map_of_mem Prod.snd hmem
  rw [h1, List.mem_range] at this
  unfold Numberer.len
  omega

theorem number_idx_lt_len {V : Type} [DecidableEq V] {m : Numberer V}
    (hwf : m.WF) (v : V) : (m.number v).1 < (m.number v).2.len := by
  rcases h : m.getNumber v with _ | i
  · obtain ⟨_, _, h3⟩ := hwf
    rw [number_new h]
    simp [Numberer.len]
    omega
  · rw [number_seen h]
    exact getNumber_lt_len hwf h

theorem number_new_idx {V : Type} [DecidableEq V] {m : Numberer V} {v : V}
    (hwf : m.WF) (h : m.getNumber v = none) : (m.number v).1 = m.len := by
  rw [number_new h]
  exact hwf.2.2.symm

theorem getNumber_inj {V : Type} [DecidableEq V] {m : Numberer V} (hwf : m.WF)
    {v w : V} {i j : Nat} (hv : m.getNumber v = some i)
    (hw : m.getNumber w = some j) (hne : v ≠ w) : i ≠ j := by
  obtain ⟨h1, _, _⟩ := hwf
  intro hij
  subst hij
  have hmv : (v, i) ∈ m.val2idx := lookupVal_mem hv
  have hmw : (w, i) ∈ m.val2idx := lookupVal_mem hw
  have hnd : (m.val2idx.map Prod.snd).Nodup := by
    rw [h1]; exact List.nodup_range _
  have := List.inj_on_of_nodup_map hnd hmv hmw rfl
  exact hne (congrArg Prod.fst this)

theorem WF_numberAll {V : Type} [DecidableEq V] {m : Numberer V} (hwf : m.WF)
    (vs : List V) : (m.numberAll vs).WF := by
  induction vs generalizing m with
  | nil => exact hwf
  | cons v vs ih => exact ih (WF_number hwf v)

theorem mem_keys_of_getNumber {V : Type} [DecidableEq V] {m : Numberer V}
    {v : V} {i : Nat} (h : m.getNumber v = some i) : v ∈ m.keys :=
  List.mem_map_of_mem Prod.fst (lookupVal_mem h)

theorem keys_number_toFinset {V : Type} [DecidableEq V] (m : Numberer V)
    (v : V) : (m.number v).2.keys.toFinset = insert v m.keys.toFinset := by
  rcases h : m.getNumber v with _ | i
  · rw [number_new h]
    unfold Numberer.keys
    ext x
    constructor
    · intro hx
      simp at hx ⊢
      tauto
    · intro hx
      simp at hx ⊢
      tauto
  · rw [number_seen h]
    have : v ∈ m.keys.toFinset := List.mem_toFinset.2 (mem_keys_of_getNumber h)
    rw [Finset.insert_eq_self.2 this]

theorem keys_numberAll_toFinset {V : Type} [DecidableEq V] (m : Numberer V)
    (vs : List V) :
    (m.numberAll vs).keys.toFinset = m.keys.toFinset ∪ vs.toFinset := by
  induction vs generalizing m with
  | nil => simp [Numberer.numberAll]
  | cons v vs ih =>
    unfold Numberer.numberAll
    rw [ih, keys_number_toFinset]
    ext x
    constructor
    · intro hx
      simp at hx ⊢
      tauto
    · intro hx
      simp at hx ⊢
      tauto

theorem len_eq_card_keys {V : Type} [DecidableEq V] {m : Numberer V}
    (hwf : m.WF) : m.len = m.keys.toFinset.card := by
  obtain ⟨_, h2, h3⟩ := hwf
  unfold Numberer.len Numberer.keys
  rw [List.toFinset_card_of_nodup h2, List.length_map]
  exact h3

theorem numberAll_len_distinct {V : Type} [DecidableEq V] (vs : List V) :
    ((Numberer.new V).numberAll vs).len = vs.toFinset.card := by
  rw [len_eq_card_keys (WF_numberAll (WF_new V) vs), keys_numberAll_toFinset]
  simp [Numberer.new, Numberer.keys]

/-- C2: for every sequence of number() calls, numbering an already-seen value
again (after arbitrary further calls) returns the same index as its first call
and leaves the mapping unchanged; two distinct seen values have distinct
indices; and len() equals the number of distinct values seen so far. -/
theorem claim_C2_numberer_determinism {V : Type} [DecidableEq V]
    (vs ws : List V) (v w : V) (i j : Nat) (hvw : v ≠ w)
    (hv : ((Numberer.new V).numberAll vs).getNumber v = some i)
    (hw : ((Numberer.new V).numberAll vs).getNumber w = some j) :
    ((((Numberer.new V).numberAll vs).number v).2.numberAll ws).number v
      = ((((Numberer.new V).numberAll vs).number v).1,
         (((Numberer.new V).numberAll vs).number v).2.numberAll ws)
    ∧ i ≠ j
    ∧ ((Numberer.new V).numberAll vs).len = vs.toFinset.card := by
  refine ⟨?_, ?_, numberAll_len_distinct vs⟩
  · apply number_seen
    exact getNumber_numberAll_mono
      (getNumber_number_self ((Numberer.new V).numberAll vs) v) ws
  · exact getNumber_inj (WF_numberAll (WF_new V) vs) hv hw hvw

theorem claim_C2_witness :
    (5 : Nat) ≠ 7
    ∧ ((Numberer.new Nat).numberAll [5, 7, 5]).getNumber 5 = some 0
    ∧ ((Numberer.new Nat).numberAll [5, 7, 5]).getNumber 7 = some 1
    ∧ (((((Numberer.new Nat).numberAll [5, 7, 5]).number 5).2.numberAll
            [9]).number 5
          = ((((Numberer.new Nat).numberAll [5, 7, 5]).number 5).1,
             (((Numberer.new Nat).numberAll [5, 7, 5]).number 5).2.numberAll
               [9])
        ∧ (0 : Nat) ≠ 1
        ∧ ((Numberer.new Nat).numberAll [5, 7, 5]).len
            = ([5, 7, 5] : List Nat).toFinset.card) :=
  ⟨by decide, by decide, by decide,
    claim_C2_numberer_determinism [5, 7, 5] [9] 5 7 0 1 (by decide) (by decide)
      (by decide)⟩

theorem modifyAt_length {α : Type} (l : List α) (i : Nat) (f : α → α) :
    (modifyAt l i f).length = l.length := by
  induction l generalizing i with
  | nil => rfl
  | cons x xs ih =>
    cases i with
    | zero => rfl
    | succ i => simp [modifyAt, ih]

theorem getD_modifyAt_self {α : Type} (d : α) (l : List α) (i : Nat)
    (f : α → α) (h : i < l.length) :
    (modifyAt l i f).getD i d = f (l.getD i d) := by
  induction l generalizing i with
  | nil => simp at h
  | cons x xs ih =>
    cases i with
    | zero => rfl
    | succ i =>
      simp at h
      simpa [modifyAt] using ih i (by omega)

theorem getD_modifyAt_ne {α : Type} (d : α) (l : List α) (i k : Nat)
    (f : α → α) (h : i ≠ k) : (modifyAt l i f).getD k d = l.getD k d := by
  induction l generalizing i k with
  | nil => rfl
  | cons x xs ih =>
    cases i with
    | zero =>
      cases k with
      | zero => exact absurd rfl h
      | succ k => rfl
    | succ i =>
      cases k with
      | zero => rfl
      | succ k => simpa [modifyAt] using ih i k (by omega)

theorem mem_modifyAt {α : Type} {P : α → Prop} (l : List α) (i : Nat)
    (f : α → α) (hl : ∀ x ∈ l, P x) (hf : ∀ x, P x → P (f x)) :
    ∀ x ∈ modifyAt l i f, P x := by
  induction l generalizing i with
  | nil => intro x hx; simp [modifyAt] at hx
  | cons y ys ih =>
    cases i with
    | zero =>
      intro x hx
      rcases List.mem_cons.1 hx with h | h
      · subst h; exact hf y (hl y (List.mem_cons_self y ys))
      · exact hl x (List.mem_cons_of_mem y h)
    | succ i =>
      intro x hx
      rcases List.mem_cons.1 hx with h | h
      · subst h; exact hl x (List.mem_cons_self x ys)
      · exact ih i (fun z hz => hl z (List.mem_cons_of_mem y hz)) x h

theorem getD_singleton_zero (k : Nat) : ([0] : List Nat).getD k 0 = 0 := by
  cases k <;> rfl

theorem getD_replicate_zero (n k : Nat) :
    (List.replicate n (0 : Nat)).getD k 0 = 0 := by
  rcases lt_or_ge k n with h | h
  · rw [List.getD_eq_getElem _ _ (by simpa using h), List.getElem_replicate]
  · exact List.getD_eq_default _ _ (by simpa using h)

theorem growStep_length (m : List (List Nat)) :
    (growStep m).length = m.length + 1 := by
  simp [growStep]

theorem growStep_cell (m : List (List Nat)) (i j : Nat) :
    cell (growStep m) i j = cell m i j := by
  unfold cell growStep
  rw [List.map_append, List.map_cons, List.map_nil]
  rcases lt_trichotomy i m.length with h | h | h
  · rw [List.getD_append _ _ _ _ (by simpa using h)]
    have hmap : (m.map fun row => row ++ [0]).getD i [] = m.getD i [] ++ [0] := by
      rw [List.getD_eq_getElem _ _ (by simpa using h),
        List.getD_eq_getElem _ _ h, List.getElem_map]
    rw [hmap]
    rcases lt_or_ge j (m.getD i []).length with hj | hj
    · rw [List.getD_append _ _ _ _ hj]
    · rw [List.getD_append_right _ _ _ _ hj, List.getD_eq_default _ _ hj,
        getD_singleton_zero]
  · subst h
    have hlen : (List.map (fun row => row ++ [0]) m).length = m.length := by
      simp
    have hrow : (List.map (fun row => row ++ [0]) m
          ++ [List.replicate m.length 0 ++ [0]]).getD m.length []
        = List.replicate m.length 0 ++ [0] := by
      rw [List.getD_append_right _ _ _ _ (le_of_eq hlen), hlen, Nat.sub_self]
      rfl
    rw [hrow, List.getD_eq_default m [] le_rfl]
    rcases lt_or_ge j m.length with hj | hj
    · rw [List.getD_append _ _ _ _ (by simpa using hj), getD_replicate_zero]
      rfl
    · rw [List.getD_append_right _ _ _ _ (by simpa using hj),
        getD_singleton_zero]
      rfl
  · rw [List.getD_eq_default (List.map (fun row => row ++ [0]) m
        ++ [List.replicate m.length 0 ++ [0]]) [] (by simp; omega),
      List.getD_eq_default m [] (by omega)]

theorem growStep_square (m : List (List Nat))
    (h : ∀ row ∈ m, row.length = m.length) :
    ∀ row ∈ growStep m, row.length = (growStep m).length := by
  intro row hrow
  rw [growStep_length]
  unfold growStep at hrow
  rcases List.mem_map.1 hrow with ⟨r, hr, hrf⟩
  subst hrf
  rcases List.mem_append.1 hr with h2 | h2
  · simp [h r h2]
  · simp at h2
    subst h2
    simp

theorem growWhileFuel_congr :
    ∀ n1 n2 m t p, t + p + 2 - List.length m ≤ n1 →
      t + p + 2 - List.length m ≤ n2 →
      growWhileFuel n1 m t p = growWhileFuel n2 m t p := by
  intro n1
  induction n1 with
  | zero =>
    intro n2 m t p h1 h2
    have hg : ¬(m.length ≤ t ∨ m.length ≤ p) := by omega
    cases n2 with
    | zero => rfl
    | succ k2 =>
      show _ = if m.length ≤ t ∨ m.length ≤ p then _ else m
      rw [if_neg hg]
      rfl
  | succ k ih =>
    intro n2 m t p h1 h2
    by_cases hg : m.length ≤ t ∨ m.length ≤ p
    · have hlen : t + p + 2 - m.length ≥ 2 := by
        rcases hg with hg | hg <;> omega
      cases n2 with
      | zero => omega
      | succ k2 =>
        show (if m.length ≤ t ∨ m.length ≤ p then
            growWhileFuel k (growStep m) t p else m)
          = if m.length ≤ t ∨ m.length ≤ p then
            growWhileFuel k2 (growStep m) t p else m
        rw [if_pos hg, if_pos hg]
        exact ih k2 (growStep m) t p (by rw [growStep_length]; omega)
          (by rw [growStep_length]; omega)
    · cases n2 with
      | zero =>
        show (if m.length ≤ t ∨ m.length ≤ p then _ else m) = m
        rw [if_neg hg]
      | succ k2 =>
        show (if m.length ≤ t ∨ m.length ≤ p then _ else m)
          = if m.length ≤ t ∨ m.length ≤ p then _ else m
        rw [if_neg hg, if_neg hg]

theorem growWhile_eq (m : List (List Nat)) (t p : Nat) :
    growWhile m t p
      = if m.length ≤ t ∨ m.length ≤ p then growWhile (growStep m) t p
        else m := by
  unfold growWhile
  by_cases h : m.length ≤ t ∨ m.length ≤ p
  · rw [if_pos h]
    have hlen : t + p + 2 - m.length ≥ 2 := by
      rcases h with h | h <;> omega
    cases hn : t + p + 2 - m.length with
    | zero => omega
    | succ k =>
      show growWhileFuel (k + 1) m t p = _
      have hstep : growWhileFuel (k + 1) m t p
          = if m.length ≤ t ∨ m.length ≤ p then
              growWhileFuel k (growStep m) t p
            else m := rfl
      rw [hstep, if_pos h]
      exact growWhileFuel_congr k _ (growStep m) t p
        (by rw [growStep_length]; omega) le_rfl
  · rw [if_neg h]
    cases hn : t + p + 2 - m.length with
    | zero => rfl
    | succ k =>
      show growWhileFuel (k + 1) m t p = m
      have hstep : growWhileFuel (k + 1) m t p
          = if m.length ≤ t ∨ m.length ≤ p then
              growWhileFuel k (growStep m) t p
            else m := rfl
      rw [hstep, if_neg h]

theorem growWhile_eq_of_lt {m : List (List Nat)} {t p : Nat}
    (ht : t < m.length) (hp : p < m.length) : growWhile m t p = m := by
  rw [growWhile_eq, if_neg (by omega)]

theorem growWhile_length_aux (t p : Nat) :
    ∀ n m, t + p + 2 - List.length m ≤ n →
      (growWhile m t p).length
        = if m.length ≤ t ∨ m.length ≤ p then max t p + 1 else m.length := by
  intro n
  induction n with
  | zero =>
    intro m hm
    have ht : t < m.length := by omega
    have hp : p < m.length := by omega
    rw [growWhile_eq_of_lt ht hp, if_neg (by omega)]
  | succ n ih =>
    intro m hm
    by_cases h : m.length ≤ t ∨ m.length ≤ p
    · rw [growWhile_eq, if_pos h, if_pos h,
        ih (growStep m) (by rw [growStep_length]; omega)]
      rw [growStep_length]
      by_cases h2 : m.length + 1 ≤ t ∨ m.length + 1 ≤ p
      · rw [if_pos h2]
      · rw [if_neg h2]
        rcases le_total t p with hm2 | hm2
        · rw [max_eq_right hm2]; omega
        · rw [max_eq_left hm2]; omega
    · rw [if_neg h]
      push_neg at h
      exact congrArg List.length (growWhile_eq_of_lt h.1 h.2)

theorem growWhile_length (m : List (List Nat)) (t p : Nat) :
    (growWhile m t p).length
      = if m.length ≤ t ∨ m.length ≤ p then max t p + 1 else m.length :=
  growWhile_length_aux t p (t + p + 2) m (by omega)

theorem growWhile_cell_aux (t p i j : Nat) :
    ∀ n m, t + p + 2 - List.length m ≤ n →
      cell (growWhile m t p) i j = cell m i j := by
  intro n
  induction n with
  | zero =>
    intro m hm
    rw [growWhile_eq_of_lt (by omega) (by omega)]
  | succ n ih =>
    intro m hm
    by_cases h : m.length ≤ t ∨ m.length ≤ p
    · rw [growWhile_eq, if_pos h,
        ih (growStep m) (by rw [growStep_length]; omega), growStep_cell]
    · push_neg at h
      rw [growWhile_eq_of_lt h.1 h.2]

theorem growWhile_cell (m : List (List Nat)) (t p i j : Nat) :
    cell (growWhile m t p) i j = cell m i j :=
  growWhile_cell_aux t p i j (t + p + 2) m (by omega)

theorem growWhile_square_aux (t p : Nat) :
    ∀ n m, t + p + 2 - List.length m ≤ n →
      (∀ row ∈ m, row.length = m.length) →
      ∀ row ∈ growWhile m t p, row.length = (growWhile m t p).length := by
  intro n
  induction n with
  | zero =>
    intro m hm hsq
    rw [growWhile_eq_of_lt (by omega) (by omega)]
    exact hsq
  | succ n ih =>
    intro m hm hsq
    by_cases h : m.length ≤ t ∨ m.length ≤ p
    · rw [growWhile_eq, if_pos h]
      exact ih (growStep m) (by rw [growStep_length]; omega)
        (growStep_square m hsq)
    · push_neg at h
      rw [growWhile_eq_of_lt h.1 h.2]
      exact hsq

theorem growWhile_square (m : List (List Nat)) (t p : Nat)
    (hsq : ∀ row ∈ m, row.length = m.length) :
    ∀ row ∈ growWhile m t p, row.length = (growWhile m t p).length :=
  growWhile_square_aux t p (t + p + 2) m (by omega) hsq

theorem cell_zero_of_out {m : List (List Nat)}
    (hsq : ∀ row ∈ m, row.length = m.length) {i j : Nat}
    (h : m.length ≤ i ∨ m.length ≤ j) : cell m i j = 0 := by
  unfold cell
  rcases h with h | h
  · rw [List.getD_eq_default _ _ h]
    rfl
  · rcases lt_or_ge i m.length with hi | hi
    · have hrow : m.getD i [] ∈ m := by
        rw [List.getD_eq_getElem _ _ hi]
        exact List.getElem_mem hi
      exact List.getD_eq_default _ _ (by rw [hsq _ hrow]; exact h)
    · rw [List.getD_eq_default _ _ hi]
      rfl

theorem len_number_le {V : Type} [DecidableEq V] (m : Numberer V) (v : V) :
    m.len ≤ (m.number v).2.len := by
  rcases h : m.getNumber v with _ | i
  · rw [len_number_new h]; omega
  · rw [len_number_seen h]

theorem getNumber_number_ne {V : Type} [DecidableEq V] (m : Numberer V)
    {g p : V} (hne : g ≠ p) :
    (m.number g).2.getNumber p = m.getNumber p := by
  rcases hg : m.getNumber g with _ | gi
  · rw [number_new hg]
    unfold Numberer.getNumber at hg ⊢
    rcases hp : lookupVal m.val2idx p with _ | pi
    · rw [lookupVal_none_iff] at hg
      show lookupVal (m.val2idx ++ [(g, m.val2idx.length)]) p = none
      rw [lookupVal_append_none hp]
      simp [lookupVal, hne]
    · exact lookupVal_append_some hp
  · rw [number_seen hg]

theorem grownMatrix_length_ge {V : Type} [DecidableEq V] (c : Confusion V)
    (g p : V) : c.confusion.length ≤ (c.grownMatrix g p).length := by
  show c.confusion.length ≤ (growWhile _ _ _).length
  rw [growWhile_length]
  by_cases h : c.confusion.length ≤ c.targetIdx g
      ∨ c.confusion.length ≤ c.predIdx g p
  · rw [if_pos h]
    rcases le_total (c.targetIdx g) (c.predIdx g p) with h2 | h2
    · rw [max_eq_right h2]; rcases h with h | h <;> omega
    · rw [max_eq_left h2]; rcases h with h | h <;> omega
  · rw [if_neg h]

theorem grownMatrix_cell {V : Type} [DecidableEq V] (c : Confusion V)
    (g p : V) (i j : Nat) :
    cell (c.grownMatrix g p) i j = cell c.confusion i j :=
  growWhile_cell c.confusion (c.targetIdx g) (c.predIdx g p) i j

theorem insert_dim {V : Type} [DecidableEq V] {c : Confusion V} (hwf : c.WF)
    (g p : V) :
    (c.insert g p).confusion.length = (c.insert g p).numberer.len := by
  obtain ⟨hnwf, hdim, _⟩ := hwf
  show (modifyAt (growWhile c.confusion (c.targetIdx g) (c.predIdx g p))
        _ _).length
      = ((c.numberer.number g).2.number p).2.len
  rw [modifyAt_length, growWhile_length]
  unfold Confusion.targetIdx Confusion.predIdx
  rw [hdim]
  rcases hg : c.numberer.getNumber g with _ | gi
  · have hwf1 : (c.numberer.number g).2.WF := WF_number hnwf g
    have hti : (c.numberer.number g).1 = c.numberer.len :=
      number_new_idx hnwf hg
    have hl1 : (c.numberer.number g).2.len = c.numberer.len + 1 :=
      len_number_new hg
    rcases hp : (c.numberer.number g).2.getNumber p with _ | pi
    · have hpi : ((c.numberer.number g).2.number p).1
          = (c.numberer.number g).2.len := number_new_idx hwf1 hp
      have hl2 : ((c.numberer.number g).2.number p).2.len
          = (c.numberer.number g).2.len + 1 := len_number_new hp
      rw [if_pos (Or.inl (by omega))]
      have hle : (c.numberer.number g).1
          ≤ ((c.numberer.number g).2.number p).1 := by omega
      rw [max_eq_right hle]
      omega
    · have hpiB : ((c.numberer.number g).2.number p).1 = pi := by
        rw [number_seen hp]
      have hl2 : ((c.numberer.number g).2.number p).2.len
          = (c.numberer.number g).2.len := by rw [number_seen hp]
      have hpilt : pi < (c.numberer.number g).2.len :=
        getNumber_lt_len hwf1 hp
      rw [if_pos (Or.inl (by omega))]
      have hle : ((c.numberer.number g).2.number p).1
          ≤ (c.numberer.number g).1 := by omega
      rw [max_eq_left hle]
      omega
  · have hA : (c.numberer.number g).1 = gi := by rw [number_seen hg]
    have hn1 : (c.numberer.number g).2 = c.numberer := by rw [number_seen hg]
    have hgi : gi < c.numberer.len := getNumber_lt_len hnwf hg
    rw [hn1, hA]
    rcases hp : c.numberer.getNumber p with _ | pi
    · have hpi : (c.numberer.number p).1 = c.numberer.len :=
        number_new_idx hnwf hp
      have hl2 : (c.numberer.number p).2.len = c.numberer.len + 1 :=
        len_number_new hp
      rw [if_pos (Or.inr (by omega))]
      have hle : gi ≤ (c.numberer.number p).1 := by omega
      rw [max_eq_right hle]
      omega
    · have hpiB : (c.numberer.number p).1 = pi := by rw [number_seen hp]
      have hl2 : (c.numberer.number p).2.len = c.numberer.len := by
        rw [number_seen hp]
      have hpilt : pi < c.numberer.len := getNumber_lt_len hnwf hp
      rw [if_neg (by omega)]
      omega

theorem WF_insert {V : Type} [DecidableEq V] {c : Confusion V} (hwf : c.WF)
    (g p : V) : (c.insert g p).WF := by
  refine ⟨WF_number (WF_number hwf.1 g) p, insert_dim hwf g p, ?_⟩
  have hsq : ∀ r ∈ c.confusion, r.length = c.confusion.length := by
    intro r hr
    rw [hwf.2.1]
    exact hwf.2.2 r hr
  have hgsq : ∀ r ∈ c.grownMatrix g p, r.length = (c.grownMatrix g p).length :=
    growWhile_square c.confusion (c.targetIdx g) (c.predIdx g p) hsq
  have hrows : ∀ r ∈ (c.insert g p).confusion,
      r.length = (c.grownMatrix g p).length :=
    mem_modifyAt _ _ _ hgsq (fun x hx => by rw [modifyAt_length]; exact hx)
  have hlen : (c.grownMatrix g p).length = (c.insert g p).confusion.length :=
    (modifyAt_length _ _ _).symm
  intro row hrow
  rw [hrows row hrow, hlen, insert_dim hwf g p]

theorem insert_cell_untouched {V : Type} [DecidableEq V] (c : Confusion V)
    (g p : V) (i j : Nat) (h : ¬(i = c.targetIdx g ∧ j = c.predIdx g p)) :
    cell (c.insert g p).confusion i j = cell c.confusion i j := by
  show cell (modifyAt (c.grownMatrix g p) (c.targetIdx g) _) i j
      = cell c.confusion i j
  rw [← grownMatrix_cell c g p i j]
  unfold cell
  by_cases hi : c.targetIdx g = i
  · subst hi
    rcases lt_or_ge (c.targetIdx g) (c.grownMatrix g p).length with hlt | hge
    · rw [getD_modifyAt_self _ _ _ _ hlt]
      have hj : j ≠ c.predIdx g p := by
        intro hj
        exact h ⟨rfl, hj⟩
      rw [getD_modifyAt_ne _ _ _ _ _ (fun he => hj he.symm)]
    · rw [List.getD_eq_default
          (modifyAt (c.grownMatrix g p) (c.targetIdx g)
            fun row => modifyAt row (c.predIdx g p) fun n => n + 1) []
          (by rw [modifyAt_length]; exact hge),
        List.getD_eq_default (c.grownMatrix g p) [] hge]
  · rw [getD_modifyAt_ne _ _ _ _ _ hi]

theorem insert_cell_hit {V : Type} [DecidableEq V] {c : Confusion V}
    (hwf : c.WF) (g p : V) :
    cell (c.insert g p).confusion (c.targetIdx g) (c.predIdx g p)
      = cell c.confusion (c.targetIdx g) (c.predIdx g p) + 1 := by
  obtain ⟨hnwf, hdim, hsq⟩ := hwf
  have hwf1 : (c.numberer.number g).2.WF := WF_number hnwf g
  have htb : c.targetIdx g < ((c.numberer.number g).2.number p).2.len := by
    have h1 := number_idx_lt_len hnwf g
    have h2 := len_number_le (c.numberer.number g).2 p
    unfold Confusion.targetIdx
    omega
  have hpb : c.predIdx g p < ((c.numberer.number g).2.number p).2.len :=
    number_idx_lt_len hwf1 p
  have hglen : (c.grownMatrix g p).length
      = ((c.numberer.number g).2.number p).2.len := by
    have h0 : (c.grownMatrix g p).length = (c.insert g p).numberer.len := by
      rw [← insert_dim ⟨hnwf, hdim, hsq⟩ g p]
      show (growWhile _ _ _).length = (modifyAt (growWhile _ _ _) _ _).length
      rw [modifyAt_length]
    exact h0
  have hgsq : ∀ r ∈ c.grownMatrix g p, r.length = (c.grownMatrix g p).length :=
    growWhile_square c.confusion (c.targetIdx g) (c.predIdx g p)
      (fun r hr => by rw [hdim]; exact hsq r hr)
  have hrowmem : (c.grownMatrix g p).getD (c.targetIdx g) [] ∈ c.grownMatrix g p := by
    rw [List.getD_eq_getElem _ _ (by omega)]
    exact List.getElem_mem _
  show cell (modifyAt (c.grownMatrix g p) (c.targetIdx g) _) _ _ = _
  rw [← grownMatrix_cell c g p]
  unfold cell
  rw [getD_modifyAt_self _ _ _ _ (by omega)]
  rw [getD_modifyAt_self _ _ _ _ (by rw [hgsq _ hrowmem]; omega)]

/-- C1: after every insert the square matrix dimension equals numberer.len;
when insert numbers a previously unseen value the numberer strictly grows, the
grown matrix (the state after the growth loop, before the increment) has
dimension equal to the new numberer.len, its new cells are zero, every count
recorded before the growth sits unchanged at its old position, and the
completed insert leaves every previously recorded count unchanged at its old
(gold index, predicted index) position. -/
theorem claim_C1_confusion_growth {V : Type} [DecidableEq V] (c : Confusion V)
    (g p : V) (hwf : c.WF)
    (hnew : c.numberer.getNumber g = none ∨ c.numberer.getNumber p = none) :
    (∀ g2 p2 : V,
      (c.insert g2 p2).confusion.length = (c.insert g2 p2).numberer.len)
    ∧ (c.insert g p).WF
    ∧ c.numberer.len < (c.insert g p).numberer.len
    ∧ (c.grownMatrix g p).length = (c.insert g p).numberer.len
    ∧ (∀ i j, c.confusion.length ≤ i ∨ c.confusion.length ≤ j →
        cell (c.grownMatrix g p) i j = 0)
    ∧ (∀ i j, cell (c.grownMatrix g p) i j = cell c.confusion i j)
    ∧ (∀ i j, i < c.confusion.length → j < c.confusion.length →
        cell (c.insert g p).confusion i j = cell c.confusion i j) := by
  obtain ⟨hnwf, hdim, hsq⟩ := hwf
  refine ⟨fun g2 p2 => insert_dim ⟨hnwf, hdim, hsq⟩ g2 p2,
    WF_insert ⟨hnwf, hdim, hsq⟩ g p, ?_, ?_, ?_, ?_, ?_⟩
  · show c.numberer.len < ((c.numberer.number g).2.number p).2.len
    rcases hnew with hg | hp
    · have h1 : (c.numberer.number g).2.len = c.numberer.len + 1 :=
        len_number_new hg
      have h2 := len_number_le (c.numberer.number g).2 p
      omega
    · by_cases hg2 : c.numberer.getNumber g = none
      · have h1 : (c.numberer.number g).2.len = c.numberer.len + 1 :=
          len_number_new hg2
        have h2 := len_number_le (c.numberer.number g).2 p
        omega
      · rcases hgs : c.numberer.getNumber g with _ | gi
        · exact absurd hgs hg2
        · have hn1 : (c.numberer.number g).2 = c.numberer := by
            rw [number_seen hgs]
          rw [hn1]
          have h1 : (c.numberer.number p).2.len = c.numberer.len + 1 :=
            len_number_new hp
          omega
  · rw [← insert_dim ⟨hnwf, hdim, hsq⟩ g p]
    show (growWhile _ _ _).length = (modifyAt (growWhile _ _ _) _ _).length
    rw [modifyAt_length]
  · intro i j hij
    rw [grownMatrix_cell]
    exact cell_zero_of_out
      (fun r hr => by rw [hdim]; exact hsq r hr) hij
  · exact grownMatrix_cell c g p
  · intro i j hi hj
    apply insert_cell_untouched
    rintro ⟨hit, hjp⟩
    rcases hnew with hg | hp
    · have hti : (c.numberer.number g).1 = c.numberer.len :=
        number_new_idx hnwf hg
      unfold Confusion.targetIdx at hit
      omega
    · by_cases hg2 : c.numberer.getNumber g = none
      · have hti : (c.numberer.number g).1 = c.numberer.len :=
          number_new_idx hnwf hg2
        unfold Confusion.targetIdx at hit
        omega
      · rcases hgs : c.numberer.getNumber g with _ | gi
        · exact absurd hgs hg2
        · have hn1 : (c.numberer.number g).2 = c.numberer := by
            rw [number_seen hgs]
          have hpi : (c.predIdx g p) = c.numberer.len := by
            unfold Confusion.predIdx
            rw [hn1]
            exact number_new_idx hnwf hp
          omega

theorem claim_C1_witness :
    (cWitnessA.WF
      ∧ (cWitnessA.numberer.getNumber 0 = none
          ∨ cWitnessA.numberer.getNumber 2 = none))
    ∧ ((∀ g2 p2 : Nat,
        (cWitnessA.insert g2 p2).confusion.length
          = (cWitnessA.insert g2 p2).numberer.len)
      ∧ (cWitnessA.insert 0 2).WF
      ∧ cWitnessA.numberer.len < (cWitnessA.insert 0 2).numberer.len
      ∧ (cWitnessA.grownMatrix 0 2).length
          = (cWitnessA.insert 0 2).numberer.len
      ∧ (∀ i j,
          cWitnessA.confusion.length ≤ i ∨ cWitnessA.confusion.length ≤ j →
          cell (cWitnessA.grownMatrix 0 2) i j = 0)
      ∧ (∀ i j,
          cell (cWitnessA.grownMatrix 0 2) i j = cell cWitnessA.confusion i j)
      ∧ (∀ i j,
          i < cWitnessA.confusion.length → j < cWitnessA.confusion.length →
          cell (cWitnessA.insert 0 2).confusion i j
            = cell cWitnessA.confusion i j)) :=
  ⟨⟨by decide, Or.inr (by decide)⟩,
    claim_C1_confusion_growth cWitnessA 0 2 (by decide) (Or.inr (by decide))⟩

/-- C10: when both values of an insert are already numbered, exactly one cell
is incremented, every other cell is unchanged, and the dimension, numberer and
name are unchanged. -/
theorem claim_C10_insert_frame {V : Type} [DecidableEq V] (c : Confusion V)
    (g p : V) (gi pi : Nat) (hwf : c.WF)
    (hg : c.numberer.getNumber g = some gi)
    (hp : c.numberer.getNumber p = some pi) :
    (c.insert g p).numberer = c.numberer
    ∧ (c.insert g p).name = c.name
    ∧ (c.insert g p).confusion.length = c.confusion.length
    ∧ cell (c.insert g p).confusion gi pi = cell c.confusion gi pi + 1
    ∧ ∀ i j, ¬(i = gi ∧ j = pi) →
        cell (c.insert g p).confusion i j = cell c.confusion i j := by
  have hn1 : (c.numberer.number g).2 = c.numberer := by rw [number_seen hg]
  have hti : c.targetIdx g = gi := by
    unfold Confusion.targetIdx
    rw [number_seen hg]
  have hpi : c.predIdx g p = pi := by
    unfold Confusion.predIdx
    rw [hn1, number_seen hp]
  refine ⟨?_, rfl, ?_, ?_, ?_⟩
  · show ((c.numberer.number g).2.number p).2 = c.numberer
    rw [hn1, number_seen hp]
  · show (modifyAt (growWhile _ _ _) _ _).length = _
    rw [modifyAt_length, growWhile_length, if_neg]
    rw [hti, hpi, hwf.2.1]
    push_neg
    exact ⟨getNumber_lt_len hwf.1 hg, getNumber_lt_len hwf.1 hp⟩
  · rw [← hti, ← hpi]
    exact insert_cell_hit hwf g p
  · intro i j hij
    apply insert_cell_untouched
    rw [hti, hpi]
    exact hij

theorem claim_C10_witness :
    (cWitnessB.WF
      ∧ cWitnessB.numberer.getNumber 3 = some 0
      ∧ cWitnessB.numberer.getNumber 4 = some 1)
    ∧ ((cWitnessB.insert 3 4).numberer = cWitnessB.numberer
      ∧ (cWitnessB.insert 3 4).name = cWitnessB.name
      ∧ (cWitnessB.insert 3 4).confusion.length = cWitnessB.confusion.length
      ∧ cell (cWitnessB.insert 3 4).confusion 0 1
          = cell cWitnessB.confusion 0 1 + 1
      ∧ ∀ i j, ¬(i = 0 ∧ j = 1) →
          cell (cWitnessB.insert 3 4).confusion i j
            = cell cWitnessB.confusion i j) :=
  ⟨⟨by decide, by decide, by decide⟩,
    claim_C10_insert_frame cWitnessB 3 4 0 1 (by decide) (by decide)
      (by decide)⟩

theorem getD_le_sum (l : List Nat) (i : Nat) : l.getD i 0 ≤ l.sum := by
  induction l generalizing i with
  | nil => simp
  | cons x xs ih =>
    cases i with
    | zero => simp
    | succ i =>
      have := ih i
      simp only [List.sum_cons]
      calc (x :: xs).getD (i + 1) 0 = xs.getD i 0 := rfl
        _ ≤ xs.sum := ih i
        _ ≤ x + xs.sum := by omega

theorem sum_getD (l : List Nat) :
    l.sum = ∑ j in Finset.range l.length, l.getD j 0 := by
  induction l with
  | nil => simp
  | cons x xs ih =>
    rw [List.sum_cons, ih]
    show x + _ = ∑ j in Finset.range (xs.length + 1), (x :: xs).getD j 0
    rw [Finset.sum_range_succ']
    have h0 : (x :: xs).getD 0 0 = x := rfl
    have hs : ∀ j, (x :: xs).getD (j + 1) 0 = xs.getD j 0 := fun j => rfl
    simp only [h0, hs]
    omega

theorem foldl_add_range (f : Nat → Nat) :
    ∀ (n a : Nat),
      (List.range n).foldl (fun acc j => acc + f j) a
        = a + ∑ j in Finset.range n, f j := by
  intro n
  induction n with
  | zero => intro a; simp
  | succ n ih =>
    intro a
    rw [List.range_succ, List.foldl_append, ih, Finset.sum_range_succ]
    show a + _ + f n = _
    omega

theorem sum_ite_erase (n i : Nat) (f : Nat → Nat) :
    ∑ x in Finset.range n, (if x = i then 0 else f x)
      = ∑ x in (Finset.range n).erase i, f x := by
  have h1 : ∑ x in (Finset.range n).erase i, (if x = i then 0 else f x)
      = ∑ x in Finset.range n, (if x = i then 0 else f x) :=
    Finset.sum_erase _ (by simp)
  have h2 : ∑ x in (Finset.range n).erase i, (if x = i then 0 else f x)
      = ∑ x in (Finset.range n).erase i, f x :=
    Finset.sum_congr rfl (fun x hx => if_neg (Finset.ne_of_mem_erase hx))
  omega

theorem falsePos_eq {V : Type} (c : Confusion V) (i : Nat) :
    c.falsePos i
      = ∑ j in (Finset.range c.confusion.length).erase i,
          cell c.confusion j i := by
  unfold Confusion.falsePos
  have hfun : (fun fp j => if j = i then fp else fp + cell c.confusion j i)
      = fun (fp j : Nat) => fp + (if j = i then 0 else cell c.confusion j i) := by
    funext fp j
    by_cases hj : j = i
    · simp [hj]
    · simp [hj]
  rw [hfun, foldl_add_range, sum_ite_erase]
  omega

theorem displayStats_eq {V : Type} (c : Confusion V) :
    c.displayStats
      = (∑ k in Finset.range c.numberer.idx2val.length,
          (c.confusion.getD k []).getD k 0,
        ∑ k in Finset.range c.numberer.idx2val.length,
          (c.confusion.getD k []).sum) := by
  have aux : ∀ (n a b : Nat),
      (List.range n).foldl
        (fun acc idx =>
          let row := c.confusion.getD idx []
          (acc.1 + row.getD idx 0, acc.2 + row.sum))
        (a, b)
      = (a + ∑ k in Finset.range n, (c.confusion.getD k []).getD k 0,
         b + ∑ k in Finset.range n, (c.confusion.getD k []).sum) := by
    intro n
    induction n with
    | zero => intro a b; simp
    | succ n ih =>
      intro a b
      rw [List.range_succ, List.foldl_append, ih, Prod.ext_iff]
      simp only [List.foldl_cons, List.foldl_nil, Finset.sum_range_succ]
      constructor <;> omega
  show (List.range c.numberer.idx2val.length).foldl _ (0, 0) = _
  rw [aux c.numberer.idx2val.length 0 0]
  simp

/-- C5: in the full tabular rendering, the per-class precision for class i is
the diagonal cell divided by the column sum (diagonal plus the off-diagonal
column entries), and the final overall accuracy is the sum of all diagonal
cells divided by the sum of all cells. -/
theorem claim_C5_display_precision_accuracy {V : Type} [DecidableEq V]
    (c : Confusion V) (hwf : c.WF) (i : Nat) (hi : i < c.confusion.length) :
    c.displayPrec i
      = divCounts (cell c.confusion i i)
          (cell c.confusion i i
            + ∑ j in (Finset.range c.confusion.length).erase i,
                cell c.confusion j i)
    ∧ c.displayAcc
      = divCounts (∑ k in Finset.range c.numberer.len, cell c.confusion k k)
          (∑ k in Finset.range c.numberer.len,
            ∑ j in Finset.range c.numberer.len, cell c.confusion k j) := by
  constructor
  · unfold Confusion.displayPrec
    rw [falsePos_eq]
  · unfold Confusion.displayAcc
    rw [displayStats_eq]
    show divCounts (∑ k in Finset.range c.numberer.len,
          (c.confusion.getD k []).getD k 0)
        (∑ k in Finset.range c.numberer.len, (c.confusion.getD k []).sum) = _
    congr 1
    apply Finset.sum_congr rfl
    intro k hk
    rw [sum_getD]
    have hkdim : k < c.confusion.length := by
      rw [hwf.2.1]
      exact Finset.mem_range.1 hk
    have hmem : c.confusion.getD k [] ∈ c.confusion := by
      rw [List.getD_eq_getElem _ _ hkdim]
      exact List.getElem_mem hkdim
    have hrl : (c.confusion.getD k []).length = c.numberer.len :=
      hwf.2.2 _ hmem
    rw [hrl]
    rfl

theorem claim_C5_witness :
    (cWitnessD.WF ∧ 0 < cWitnessD.confusion.length)
    ∧ (cWitnessD.displayPrec 0
        = divCounts (cell cWitnessD.confusion 0 0)
            (cell cWitnessD.confusion 0 0
              + ∑ j in (Finset.range cWitnessD.confusion.length).erase 0,
                  cell cWitnessD.confusion j 0)
      ∧ cWitnessD.displayAcc
        = divCounts
            (∑ k in Finset.range cWitnessD.numberer.len,
              cell cWitnessD.confusion k k)
            (∑ k in Finset.range cWitnessD.numberer.len,
              ∑ j in Finset.range cWitnessD.numberer.len,
                cell cWitnessD.confusion k j)) :=
  ⟨⟨by decide, by decide⟩,
    claim_C5_display_precision_accuracy cWitnessD (by decide) 0 (by decide)⟩

/-- C6: write_accuracies emits one line per known class in numbering order,
carrying the class value, the row total, and the accuracy correct over total;
a zero row total yields the non-finite NaN value, never a crash and never a
zero accuracy. -/
theorem claim_C6_write_accuracies {V : Type} [DecidableEq V] (c : Confusion V)
    (hwf : c.WF) (idx : Nat) (hidx : idx < c.numberer.len) (v : V)
    (hv : c.numberer.getVal idx = some v) :
    c.writeAccuracies.length = c.numberer.len
    ∧ c.writeAccuracies.get? idx
        = some (v, (c.confusion.getD idx []).sum,
            divCounts ((c.confusion.getD idx []).getD idx 0)
              ((c.confusion.getD idx []).sum))
    ∧ ((c.confusion.getD idx []).sum = 0 →
        divCounts ((c.confusion.getD idx []).getD idx 0)
            ((c.confusion.getD idx []).sum) = FVal.nan
        ∧ divCounts ((c.confusion.getD idx []).getD idx 0)
            ((c.confusion.getD idx []).sum) ≠ FVal.val 0) := by
  refine ⟨?_, ?_, ?_⟩
  · unfold Confusion.writeAccuracies
    rw [List.length_map, List.enum_length]
    rfl
  · unfold Confusion.writeAccuracies
    rw [List.get?_map, List.get?_enum]
    unfold Numberer.getVal at hv
    rw [hv]
    rfl
  · intro h0
    have hle := getD_le_sum (c.confusion.getD idx []) idx
    have hz : (c.confusion.getD idx []).getD idx 0 = 0 := by omega
    rw [h0, hz]
    exact ⟨rfl, by simp [divCounts]⟩

theorem claim_C6_witness :
    (cWitnessC.WF ∧ 1 < cWitnessC.numberer.len
      ∧ cWitnessC.numberer.getVal 1 = some 8)
    ∧ (cWitnessC.writeAccuracies.length = cWitnessC.numberer.len
      ∧ cWitnessC.writeAccuracies.get? 1
          = some (8, (cWitnessC.confusion.getD 1 []).sum,
              divCounts ((cWitnessC.confusion.getD 1 []).getD 1 0)
                ((cWitnessC.confusion.getD 1 []).sum))
      ∧ ((cWitnessC.confusion.getD 1 []).sum = 0 →
          divCounts ((cWitnessC.confusion.getD 1 []).getD 1 0)
              ((cWitnessC.confusion.getD 1 []).sum) = FVal.nan
          ∧ divCounts ((cWitnessC.confusion.getD 1 []).getD 1 0)
              ((cWitnessC.confusion.getD 1 []).sum) ≠ FVal.val 0)) :=
  ⟨⟨by decide, by decide, by decide⟩,
    claim_C6_write_accuracies cWitnessC (by decide) 1 (by decide) 8
      (by decide)⟩

theorem tally_total (vT pT : DepTriple) (vR pR : String) (idx : Nat)
    (st : ScoreState) : (tally vT pT vR pR idx st).total = st.total + 1 := rfl

theorem tally_inv (vT pT : DepTriple) (vR pR : String) (idx : Nat)
    (st : ScoreState) (h1 : st.correctHeadLabel ≤ st.correctHead)
    (h2 : st.correctHead ≤ st.total) :
    (tally vT pT vR pR idx st).correctHeadLabel
        ≤ (tally vT pT vR pR idx st).correctHead
    ∧ (tally vT pT vR pR idx st).correctHead
        ≤ (tally vT pT vR pR idx st).total := by
  unfold tally
  dsimp only
  constructor
  · by_cases he : pT = vT
    · rw [if_pos he, if_pos (by rw [he])]
      omega
    · rw [if_neg he]
      by_cases hh : pT.head = vT.head
      · rw [if_pos hh]; omega
      · rw [if_neg hh]; omega
  · by_cases hh : pT.head = vT.head
    · rw [if_pos hh]; omega
    · rw [if_neg hh]; omega

theorem scoreStep_ok {vsent psent : Sentence} {idx : Nat} {vt pt : Tok}
    {st st2 : ScoreState}
    (h : scoreStep vsent psent idx vt pt st = Except.ok st2) :
    ∃ vT pT vR pR, st2 = tally vT pT vR pR idx st := by
  unfold scoreStep at h
  split at h
  · exact Except.noConfusion h
  split at h
  · exact Except.noConfusion h
  split at h
  · exact Except.noConfusion h
  split at h
  · exact Except.noConfusion h
  split at h
  · exact Except.noConfusion h
  injection h with h2
  exact ⟨_, _, _, _, h2.symm⟩

theorem scoreTokens_props (vsent psent : Sentence) :
    ∀ (pairs : List (Tok × Tok)) (idx : Nat) (st st2 : ScoreState),
      scoreTokens vsent psent pairs idx st = Except.ok st2 →
      st2.total = st.total + pairs.length
      ∧ (st.correctHeadLabel ≤ st.correctHead → st.correctHead ≤ st.total →
          st2.correctHeadLabel ≤ st2.correctHead
            ∧ st2.correctHead ≤ st2.total) := by
  intro pairs
  induction pairs with
  | nil =>
    intro idx st st2 h
    unfold scoreTokens at h
    injection h with h2
    subst h2
    exact ⟨by simp, fun h1 h2 => ⟨h1, h2⟩⟩
  | cons pr rest ih =>
    obtain ⟨vt, pt⟩ := pr
    intro idx st st2 h
    unfold scoreTokens at h
    cases hstep : scoreStep vsent psent idx vt pt st with
    | error e =>
      rw [hstep] at h
      exact Except.noConfusion h
    | ok st3 =>
      rw [hstep] at h
      obtain ⟨vT, pT, vR, pR, h3⟩ := scoreStep_ok hstep
      subst h3
      have hr := ih (idx + 1) _ st2 h
      constructor
      · rw [hr.1, tally_total, List.length_cons]
        omega
      · intro h1 h2
        have hti := tally_inv vT pT vR pR idx st h1 h2
        exact hr.2 hti.1 hti.2

/-- C3 counterexample: a gold and predicted sentence of equal unfiltered
length whose filtered token counts differ (one versus two) are scored with no
failure at all: the zip truncates to one aligned pair and the extra predicted
token is silently dropped. -/
theorem claim_C3_counterexample :
    (tokensOf goldFilterMismatch).length
        ≠ (tokensOf predFilterMismatch).length
    ∧ goldFilterMismatch.length = predFilterMismatch.length
    ∧ (scoreSentencePair goldFilterMismatch predFilterMismatch
          initState).map (fun st => st.total)
        = Except.ok 1 := by decide

/-- C3 amended: the scorer asserts equality of the UNFILTERED sentence
lengths and fails with AlignmentMismatch exactly there; with equal
unfiltered lengths it zips the filtered token sequences, so a successful
pass scores exactly min of the filtered lengths pairs, silently truncating
the longer filtered sequence; a surface-form mismatch at an aligned pair
stops scoring with a failure. -/
theorem claim_C3_alignment_amended (vsent psent : Sentence) (st : ScoreState)
    (hlen : vsent.length ≠ psent.length) :
    scoreSentencePair vsent psent st = Except.error ScoreErr.lenMismatch
    ∧ (∀ (v2 p2 : Sentence) (st2 st3 : ScoreState),
        scoreSentencePair v2 p2 st2 = Except.ok st3 →
        st3.total
          = st2.total + min (tokensOf v2).length (tokensOf p2).length)
    ∧ (∀ (v2 p2 : Sentence) (idx : Nat) (st2 : ScoreState) (vt pt : Tok)
        (rest : List (Tok × Tok)), vt.form ≠ pt.form →
        scoreTokens v2 p2 ((vt, pt) :: rest) idx st2
          = Except.error ScoreErr.formMismatch) := by
  refine ⟨?_, ?_, ?_⟩
  · unfold scoreSentencePair
    rw [if_neg hlen]
  · intro v2 p2 st2 st3 h
    unfold scoreSentencePair at h
    split at h
    · have := (scoreTokens_props v2 p2 _ 1 st2 st3 h).1
      rw [List.length_zip] at this
      have hmin : (tokensOf v2).length ⊓ (tokensOf p2).length
          = min (tokensOf v2).length (tokensOf p2).length := rfl
      rw [hmin] at this
      exact this
    · exact Except.noConfusion h
  · intro v2 p2 idx st2 vt pt rest hform
    unfold scoreTokens scoreStep
    rw [if_pos hform]

theorem claim_C3_witness :
    goldLenMismatch.length ≠ ([] : Sentence).length
    ∧ (scoreSentencePair goldLenMismatch [] initState
          = Except.error ScoreErr.lenMismatch
      ∧ (∀ (v2 p2 : Sentence) (st2 st3 : ScoreState),
          scoreSentencePair v2 p2 st2 = Except.ok st3 →
          st3.total
            = st2.total + min (tokensOf v2).length (tokensOf p2).length)
      ∧ (∀ (v2 p2 : Sentence) (idx : Nat) (st2 : ScoreState) (vt pt : Tok)
          (rest : List (Tok × Tok)), vt.form ≠ pt.form →
          scoreTokens v2 p2 ((vt, pt) :: rest) idx st2
            = Except.error ScoreErr.formMismatch)) :=
  ⟨by decide,
    claim_C3_alignment_amended goldLenMismatch [] initState (by decide)⟩

theorem runLoop_stop (gv pv : ReadResult) (gs ps : List ReadResult)
    (st : ScoreState) (h : gv.isOkSome = false ∨ pv.isOkSome = false) :
    runLoop (gv :: gs) (pv :: ps) st = Except.ok st := by
  cases gv with
  | ok v =>
    cases pv with
    | ok p => simp [ReadResult.isOkSome] at h
    | eof => rfl
    | err => rfl
  | eof => rfl
  | err => rfl

theorem runLoop_inv : ∀ (gs ps : List ReadResult) (st st2 : ScoreState),
    runLoop gs ps st = Except.ok st2 →
    st.correctHeadLabel ≤ st.correctHead → st.correctHead ≤ st.total →
    st2.correctHeadLabel ≤ st2.correctHead ∧ st2.correctHead ≤ st2.total := by
  intro gs
  induction gs with
  | nil =>
    intro ps st st2 h h1 h2
    have hred : runLoop [] ps st = Except.ok st := by cases ps <;> rfl
    rw [hred] at h
    injection h with h3
    subst h3
    exact ⟨h1, h2⟩
  | cons gv gs ih =>
    intro ps st st2 h h1 h2
    cases ps with
    | nil =>
      have hred : runLoop (gv :: gs) [] st = Except.ok st := rfl
      rw [hred] at h
      injection h with h3
      subst h3
      exact ⟨h1, h2⟩
    | cons pv ps =>
      cases gv with
      | ok v =>
        cases pv with
        | ok p =>
          cases hsp : scoreSentencePair v p st with
          | error e =>
            have hred : runLoop (ReadResult.ok v :: gs)
                (ReadResult.ok p :: ps) st = Except.error e := by
              show (match scoreSentencePair v p st with
                | Except.ok st3 => runLoop gs ps st3
                | Except.error e2 => Except.error e2) = _
              rw [hsp]
            rw [hred] at h
            exact Except.noConfusion h
          | ok st3 =>
            have hred : runLoop (ReadResult.ok v :: gs)
                (ReadResult.ok p :: ps) st = runLoop gs ps st3 := by
              show (match scoreSentencePair v p st with
                | Except.ok st3 => runLoop gs ps st3
                | Except.error e2 => Except.error e2) = _
              rw [hsp]
            rw [hred] at h
            have hsp2 : st3.correctHeadLabel ≤ st3.correctHead
                ∧ st3.correctHead ≤ st3.total := by
              unfold scoreSentencePair at hsp
              split at hsp
              · exact (scoreTokens_props v p _ 1 st st3 hsp).2 h1 h2
              · exact Except.noConfusion hsp
            exact ih ps st3 st2 h hsp2.1 hsp2.2
        | eof =>
          rw [runLoop_stop (ReadResult.ok v) ReadResult.eof gs ps st
            (Or.inr rfl)] at h
          injection h with h3
          subst h3
          exact ⟨h1, h2⟩
        | err =>
          rw [runLoop_stop (ReadResult.ok v) ReadResult.err gs ps st
            (Or.inr rfl)] at h
          injection h with h3
          subst h3
          exact ⟨h1, h2⟩
      | eof =>
        rw [runLoop_stop ReadResult.eof pv gs ps st (Or.inl rfl)] at h
        injection h with h3
        subst h3
        exact ⟨h1, h2⟩
      | err =>
        rw [runLoop_stop ReadResult.err pv gs ps st (Or.inl rfl)] at h
        injection h with h3
        subst h3
        exact ⟨h1, h2⟩

/-- C4: throughout every run of the scoring loop correct_head_label is at
most correct_head, which is at most total, and hence LAS is at most UAS as
exact ratios. -/
theorem claim_C4_las_le_uas (gs ps : List ReadResult) (st0 st : ScoreState)
    (h1 : st0.correctHeadLabel ≤ st0.correctHead)
    (h2 : st0.correctHead ≤ st0.total)
    (hrun : runLoop gs ps st0 = Except.ok st) :
    st.correctHeadLabel ≤ st.correctHead
    ∧ st.correctHead ≤ st.total
    ∧ (st.correctHeadLabel : ℚ) / (st.total : ℚ)
        ≤ (st.correctHead : ℚ) / (st.total : ℚ) := by
  have hi := runLoop_inv gs ps st0 st hrun h1 h2
  refine ⟨hi.1, hi.2, ?_⟩
  rcases Nat.eq_zero_or_pos st.total with h0 | h0
  · rw [h0]
    simp
  · have hc : (0 : ℚ) < (st.total : ℚ) := by exact_mod_cast h0
    rw [div_le_div_right hc]
    exact_mod_cast hi.1

theorem claim_C4_witness :
    (initState.correctHeadLabel ≤ initState.correctHead
      ∧ initState.correctHead ≤ initState.total
      ∧ runLoop [ReadResult.ok c4Gold] [ReadResult.ok c4Pred] initState
          = Except.ok c4State)
    ∧ (c4State.correctHeadLabel ≤ c4State.correctHead
      ∧ c4State.correctHead ≤ c4State.total
      ∧ (c4State.correctHeadLabel : ℚ) / (c4State.total : ℚ)
          ≤ (c4State.correctHead : ℚ) / (c4State.total : ℚ)) :=
  ⟨⟨by decide, by decide, by decide⟩,
    claim_C4_las_le_uas [ReadResult.ok c4Gold] [ReadResult.ok c4Pred]
      initState c4State (by decide) (by decide) (by decide)⟩

/-- C7 counterexample: the scenario run inserts predicted distance 0 for the
third token (head 3 at position 3), not 2; the distance numberer therefore
records the value 0 and the matrix differs from the one the claimed pairs
(1,1), (2,2), (1,2) would build. -/
theorem claim_C7_counterexample :
    (scenarioResult.map fun st => st.distanceConfusion.numberer.idx2val)
        = Except.ok [1, 2, 0]
    ∧ ((Confusion.new "Dists" : Confusion Nat).insertAll
          [(1, 1), (2, 2), (1, 2)]).numberer.idx2val = [1, 2]
    ∧ (scenarioResult.map fun st => st.distanceConfusion.confusion)
        ≠ Except.ok ((Confusion.new "Dists" : Confusion Nat).insertAll
            [(1, 1), (2, 2), (1, 2)]).confusion := by decide

/-- C7 amended: the scenario yields correct_head 2, correct_head_label 2,
total 3, UAS and LAS both 0.6667, and the distance confusion receives gold
distances 1, 2, 1 paired with predicted distances 1, 2, 0. -/
theorem claim_C7_scenario :
    (scenarioResult.map fun st =>
        (st.correctHead, st.correctHeadLabel, st.total))
      = Except.ok (2, 2, 3)
    ∧ (scenarioResult.map fun st => st.distanceConfusion)
        = Except.ok ((Confusion.new "Dists" : Confusion Nat).insertAll
            [(1, 1), (2, 2), (1, 0)])
    ∧ round4 2 3 = 6667 := by
  refine ⟨by decide, by decide, ?_⟩
  unfold round4
  norm_num [round_eq]

/-- C8: the source swaps the DISTANCE_CONFUSION and DISTANCE_ACCURACIES
constant strings, so a run configured with only the option named
distance_confusion receives the distance per-class accuracy table, not the
distance confusion matrix, and the option named distance_accuracies receives
the matrix; an omitted destination produces no output. -/
theorem claim_C8_reporter_swapped :
    reporterWrites ⟨[("distance_confusion", "out.txt")]⟩
        = [("out.txt", Rendering.distanceAccuracies)]
    ∧ reporterWrites ⟨[("distance_confusion", "out.txt")]⟩
        ≠ [("out.txt", Rendering.distanceMatrix)]
    ∧ reporterWrites ⟨[("distance_accuracies", "out2.txt")]⟩
        = [("out2.txt", Rendering.distanceMatrix)]
    ∧ reporterWrites ⟨[]⟩ = [] := by decide

/-- C9 counterexample: with a read failure in the middle of the gold stream,
the run completes normally and reports the counters accumulated from the one
sentence read before the failure (1, 1, 1), instead of stopping; the same
streams without the failure would report (3, 3, 3). -/
theorem claim_C9_counterexample :
    mainModel (some c9Gold) (some c9Pred) = Except.ok (1, 1, 1)
    ∧ mainModel (some c9Pred) (some c9Pred) = Except.ok (3, 3, 3) := by decide

/-- C9 amended: a failure to open either input aborts the run before any
scoring; but a read failure occurring mid-stream merely ends the while-let
loop, and the metrics accumulated from the tokens processed so far are
reported. -/
theorem claim_C9_input_failures (gs ps : List ReadResult) (st : ScoreState)
    (gv pv : ReadResult)
    (h : gv.isOkSome = false ∨ pv.isOkSome = false) :
    mainModel none (some ps) = Except.error RunErr.inputUnavailable
    ∧ mainModel (some gs) none = Except.error RunErr.inputUnavailable
    ∧ runLoop (gv :: gs) (pv :: ps) st = Except.ok st :=
  ⟨rfl, rfl, runLoop_stop gv pv gs ps st h⟩

theorem claim_C9_witness :
    (ReadResult.err.isOkSome = false
      ∨ (ReadResult.ok c9Sentence).isOkSome = false)
    ∧ (mainModel none (some c9Pred) = Except.error RunErr.inputUnavailable
      ∧ mainModel (some c9Gold) none = Except.error RunErr.inputUnavailable
      ∧ runLoop (ReadResult.err :: c9Gold)
          (ReadResult.ok c9Sentence :: c9Pred) initState
          = Except.ok initState) :=
  ⟨Or.inl rfl,
    claim_C9_input_failures c9Gold c9Pred initState ReadResult.err
      (ReadResult.ok c9Sentence) (Or.inl rfl)⟩

end DepEval
